import Mathlib

set_option maxHeartbeats 1000000

/-!
Verification of `cogs-scripts/landsat8-process-mosaic.py`.

The script is a linear orchestration pipeline around an opaque external
imagery-processing library (PCI Geomatica).  We embed it shallowly:

* the filesystem is a pair of lists of paths (directories / files), where a
  path is its list of components;
* every external effect whose outcome the script cannot control (the user's
  answer at the prompt, `shutil.rmtree` partial failures, `mkdir` failures,
  and the four PCI operations `hazerem`, `atcor`, `automos`, `fexport`) is
  driven by an oracle environment `Env`;
* each stage returns the updated filesystem together with the list of
  observable events it emitted (external calls with their literal arguments,
  per-item error logs, and the completion notification), so that temporal
  claims about the run become statements about the produced trace.

Python exceptions are modelled with `Except`: the stage bodies catch every
exception from the external calls (`except (PCIException, Exception)`), so
the stage functions are total; `setup_directories`, whose `mkdir` errors are
NOT caught, returns `Except Err FS`.
-/

namespace Landsat8ProcessMosaic

/-! ### Python string primitives used by `confirm_execution`

`input("Continue? (y/n): ").lower().strip().startswith('y')`, embedded at the
level of character lists.  `Char.toLower` in Lean is exactly Python's ASCII
lowering (`A`-`Z` shifted by 32, everything else unchanged); `pyStrip`
removes leading and trailing whitespace like `str.strip()`. -/

def pyLower (s : List Char) : List Char := s.map Char.toLower

def isPySpace (c : Char) : Bool :=
  c.toNat == 32 || c.toNat == 9 || c.toNat == 10 ||
  c.toNat == 13 || c.toNat == 11 || c.toNat == 12

def pyStrip (s : List Char) : List Char :=
  ((s.dropWhile isPySpace).reverse.dropWhile isPySpace).reverse

def pyStartswith (pre s : List Char) : Bool := pre.isPrefixOf s

/-- `LandsatMosaicProcessor.confirm_execution`:
`input(...).lower().strip().startswith('y')`. -/
def confirm_execution (line : List Char) : Bool :=
  pyStartswith ['y'] (pyStrip (pyLower line))

/-! ### Decimal rendering used by the f-strings `f"hazerem{i}.pix"` etc. -/

def natToDecAux (fuel n : Nat) : List Char :=
  match fuel with
  | 0 => []
  | fuel + 1 =>
    if n < 10 then [Char.ofNat (48 + n)]
    else natToDecAux fuel (n / 10) ++ [Char.ofNat (48 + n % 10)]

def natToDec (n : Nat) : List Char := natToDecAux (n + 1) n

/-! ### Paths and the filesystem model -/

/-- A filesystem path, as its list of components. -/
abbrev FPath := List String

def working_dir : FPath := ["d:", "delbello_mosaic"]

def haze_out : FPath := working_dir ++ ["hazerem"]

def atcor_out : FPath := working_dir ++ ["atcor"]

def mosaic_out : FPath := working_dir ++ ["mosaic"]

/-- Note: the shapefile directory is nested INSIDE the mosaic directory
(`self.shp_out = self.mosaic_out / 'shp'`). -/
def shp_out : FPath := mosaic_out ++ ["shp"]

structure FS where
  dirs : List FPath
  files : List FPath
deriving DecidableEq

/-- `q` lies at or below `p`. -/
def isUnderB (p q : FPath) : Bool := p.isPrefixOf q

/-- `q` lies strictly below `p`. -/
def strictUnderB (p q : FPath) : Bool := p.isPrefixOf q && p != q

def existsIn (fs : FS) (p : FPath) : Bool :=
  fs.dirs.contains p || fs.files.contains p

/-- Membership of an entry (directory or file) in the filesystem. -/
def inFS (fs : FS) (q : FPath) : Prop := q ∈ fs.dirs ∨ q ∈ fs.files

/-- The output directory `d` has no entry strictly below it. -/
def dirEmptyIn (fs : FS) (d : FPath) : Prop :=
  ∀ q, inFS fs q → strictUnderB d q = false

/-- Executable emptiness check for a directory (used in counterexamples). -/
def dirNonemptyB (fs : FS) (d : FPath) : Bool :=
  fs.dirs.any (fun q => strictUnderB d q) || fs.files.any (fun q => strictUnderB d q)

/-- `shutil.rmtree(p, ignore_errors=True)`: only applies when `p` is a
directory; the per-entry oracle `rmOk` says which entries the OS actually
manages to delete (read-only or locked files survive, and errors are
swallowed).  An entry below `p` is removed iff the oracle allows it. -/
def rmtree_ie (rmOk : FPath → Bool) (p : FPath) (fs : FS) : FS :=
  if fs.dirs.contains p then
    { dirs := fs.dirs.filter fun q => !(isUnderB p q && rmOk q),
      files := fs.files.filter fun q => !(isUnderB p q && rmOk q) }
  else fs

/-- The nonempty prefixes of `p` (the chain of directories that
`mkdir(parents=True)` ensures). -/
def ancestors (p : FPath) : List FPath :=
  (List.range p.length).map fun k => p.take (k + 1)

inductive Err where
  | fileExists
  | osError
deriving DecidableEq

/-- `Path.mkdir(parents=True)` (with the default `exist_ok=False`): raises
`FileExistsError` when the target already exists, raises an `OSError` when
the OS refuses the creation (oracle `mkOk`), and otherwise creates the
target directory together with any missing ancestors. -/
def mkdir_p (mkOk : FPath → Bool) (p : FPath) (fs : FS) : Except Err FS :=
  if existsIn fs p then .error .fileExists
  else if mkOk p then
    .ok { dirs := fs.dirs ++ (ancestors p).filter (fun q => !fs.dirs.contains q),
          files := fs.files }
  else .error .osError

/-! ### Oracle environment and observable events -/

structure Env where
  confirmInput : List Char
  rmOk : FPath → Bool
  mkOk : FPath → Bool
  hazeOk : Nat → Bool
  atcorOk : Nat → Bool
  automosOk : Bool
  fexportOk : Bool

/-- Physical well-formedness of the removal oracle: a directory can only be
removed when everything below it can be removed as well. -/
def RmClosed (rmOk : FPath → Bool) : Prop :=
  ∀ p q : FPath, rmOk p = true → p.isPrefixOf q = true → rmOk q = true

/-- Executable filesystem well-formedness: every proper nonempty prefix of an
existing entry is an existing directory (a file cannot live in a directory
that does not exist). -/
def fswfB (fs : FS) : Bool :=
  (fs.dirs ++ fs.files).all fun q =>
    (List.range q.length).all fun k => k == 0 || fs.dirs.contains (q.take k)

inductive Event where
  | hazeCall (i : Nat) (fili : String) (hazecov : Nat) (filo : FPath)
  | hazeErr (image : FPath)
  | atcorCall (i : Nat) (fili : FPath) (filo : FPath)
  | atcorErr (image : FPath)
  | automosCall (mfile : FPath) (dbiclist : String) (mostype : String)
      (filo : FPath) (radiocor : String) (balmthd : String) (cutmthd : String)
      (filvout : FPath)
  | automosErr
  | fexportCall (fili : FPath) (filo : FPath) (dbic : List Nat) (ftype : String)
  | fexportErr
  | logNoScenes
  | notify
deriving DecidableEq

/-! ### The stages of `LandsatMosaicProcessor` -/

/-- One pass of the `setup_directories` loop body:
`if directory.exists(): shutil.rmtree(directory, ignore_errors=True)` then
`directory.mkdir(parents=True)`. -/
def setupStep (env : Env) (fs : FS) (d : FPath) : Except Err FS :=
  mkdir_p env.mkOk d (if existsIn fs d then rmtree_ie env.rmOk d fs else fs)

def directories : List FPath := [haze_out, atcor_out, mosaic_out, shp_out]

/-- `LandsatMosaicProcessor.setup_directories`. -/
def setup_directories (env : Env) (fs : FS) : Except Err FS :=
  directories.foldlM (setupStep env) fs

/-- Windows rendering of a path, as used by `str(path)` in the f-strings. -/
def pstr (p : FPath) : String := String.intercalate "\\" p

/-- `suffix-of` test on strings, the semantics of the `fnmatch`/`glob`
patterns `*MTL.txt` and `*.pix`. -/
def endsWithStr (suf s : String) : Bool := suf.data.isSuffixOf s.data

def pathName (p : FPath) : String := p.getLastD ""

/-- `LandsatMosaicProcessor.scan_input_files`: recursive `os.walk` over the
working directory collecting the files whose name matches `*MTL.txt`. -/
def scan_input_files (fs : FS) : List FPath :=
  fs.files.filter fun q => isUnderB working_dir q && endsWithStr "MTL.txt" (pathName q)

def hazeName (i : Nat) : String := String.mk ("hazerem".data ++ natToDec i ++ ".pix".data)

def atcorName (i : Nat) : String := String.mk ("atcor".data ++ natToDec i ++ ".pix".data)

def addFile (fs : FS) (p : FPath) : FS := { fs with files := fs.files ++ [p] }

/-- The `for i, image in enumerate(input_files, 1)` loop of
`process_haze_removal`: each iteration calls
`hazerem(fili=f"{image}-MS", hazecov=[40], filo=str(self.haze_out / f"hazerem{i}.pix"))`
inside `try/except (PCIException, Exception)`; on success one output raster
appears, on failure the error is logged with the scene identity and the loop
continues. -/
def hazeLoop (env : Env) (i : Nat) (fs : FS) : List FPath → FS × List Event
  | [] => (fs, [])
  | image :: rest =>
    let output_file := haze_out ++ [hazeName i]
    let callEv := Event.hazeCall i (pstr image ++ "-MS") 40 output_file
    if env.hazeOk i then
      let r := hazeLoop env (i + 1) (addFile fs output_file) rest
      (r.1, callEv :: r.2)
    else
      let r := hazeLoop env (i + 1) fs rest
      (r.1, callEv :: Event.hazeErr image :: r.2)

/-- `LandsatMosaicProcessor.process_haze_removal`. -/
def process_haze_removal (env : Env) (input_files : List FPath) (fs : FS) :
    FS × List Event :=
  hazeLoop env 1 fs input_files

/-- Direct child of `dir` whose name matches `*.pix` — the semantics of
`self.haze_out.glob('*.pix')` (non-recursive). -/
def isPixChild (dir q : FPath) : Bool :=
  q.length == dir.length + 1 && isUnderB dir q && endsWithStr ".pix" (pathName q)

def globPix (dir : FPath) (fs : FS) : List FPath := fs.files.filter (isPixChild dir)

/-- The `for i, image in enumerate(haze_files, 1)` loop of
`process_atmospheric_correction`, with the same per-item `try/except` shape
as the haze loop. -/
def atcorLoop (env : Env) (i : Nat) (fs : FS) : List FPath → FS × List Event
  | [] => (fs, [])
  | image :: rest =>
    let output_file := atcor_out ++ [atcorName i]
    let callEv := Event.atcorCall i image output_file
    if env.atcorOk i then
      let r := atcorLoop env (i + 1) (addFile fs output_file) rest
      (r.1, callEv :: r.2)
    else
      let r := atcorLoop env (i + 1) fs rest
      (r.1, callEv :: Event.atcorErr image :: r.2)

/-- `LandsatMosaicProcessor.process_atmospheric_correction`:
`haze_files = list(self.haze_out.glob('*.pix'))`, then the per-item loop. -/
def process_atmospheric_correction (env : Env) (fs : FS) : FS × List Event :=
  atcorLoop env 1 fs (globPix haze_out fs)

/-- `LandsatMosaicProcessor.create_mosaic`: a single `automos` call over the
atcor directory, wrapped in `try/except`. -/
def create_mosaic (env : Env) (fs : FS) : FS × List Event :=
  let callEv := Event.automosCall atcor_out "4,3,2" "full"
    (mosaic_out ++ ["mosaic.pix"]) "adaptive" "overlay" "mindiff"
    (shp_out ++ ["cutlines.shp"])
  if env.automosOk then
    (addFile (addFile fs (mosaic_out ++ ["mosaic.pix"])) (shp_out ++ ["cutlines.shp"]),
     [callEv])
  else (fs, [callEv, Event.automosErr])

/-- `LandsatMosaicProcessor.export_to_tif`: a single `fexport` call, wrapped
in `try/except`. -/
def export_to_tif (env : Env) (fs : FS) : FS × List Event :=
  let callEv := Event.fexportCall (mosaic_out ++ ["mosaic.pix"])
    (mosaic_out ++ ["mosaic.tif"]) [1, 2, 3] "TIF"
  if env.fexportOk then (addFile fs (mosaic_out ++ ["mosaic.tif"]), [callEv])
  else (fs, [callEv, Event.fexportErr])

/-- Final state of the run controller. -/
inductive RunResult where
  | exited (code : Nat)
  | errored (e : Err)
  | notified
deriving DecidableEq

/-- `LandsatMosaicProcessor.run`: confirmation, setup, discovery, the four
processing stages, then the unconditional completion notification.  Returns
the controller outcome, the final filesystem, and the event trace. -/
def run (env : Env) (fs : FS) : RunResult × FS × List Event :=
  if confirm_execution env.confirmInput then
    match setup_directories env fs with
    | .error e => (.errored e, fs, [])
    | .ok fs1 =>
      let input_files := scan_input_files fs1
      if input_files.isEmpty then (.exited 1, fs1, [Event.logNoScenes])
      else
        let r2 := process_haze_removal env input_files fs1
        let r3 := process_atmospheric_correction env r2.1
        let r4 := create_mosaic env r3.1
        let r5 := export_to_tif env r4.1
        (.notified, r5.1, r2.2 ++ r3.2 ++ r4.2 ++ r5.2 ++ [Event.notify])
  else (.exited 1, fs, [])

/-! ### Statement-side definitions -/

/-- `enumerate(l, i)`: the elements of `l` paired with their indices
counting from `i`. -/
def enumIdx {α : Type} (i : Nat) : List α → List (Nat × α)
  | [] => []
  | a :: l => (i, a) :: enumIdx (i + 1) l

def isHazeCallB : Event → Bool
  | .hazeCall .. => true
  | _ => false

def isAtcorCallB : Event → Bool
  | .atcorCall .. => true
  | _ => false

def isAutomosCallB : Event → Bool
  | .automosCall .. => true
  | _ => false

def isFexportCallB : Event → Bool
  | .fexportCall .. => true
  | _ => false

/-- The output rasters the haze loop actually writes (one per scene whose
`hazerem` call succeeds), in loop order. -/
def hazeOuts (env : Env) (i : Nat) : List FPath → List FPath
  | [] => []
  | _ :: rest =>
    (if env.hazeOk i then [haze_out ++ [hazeName i]] else []) ++ hazeOuts env (i + 1) rest

/-- The output rasters the atcor loop actually writes. -/
def atcorOuts (env : Env) (i : Nat) : List FPath → List FPath
  | [] => []
  | _ :: rest =>
    (if env.atcorOk i then [atcor_out ++ [atcorName i]] else []) ++ atcorOuts env (i + 1) rest

/-- Decimal re-interpretation of a digit string, used to invert `natToDec`. -/
def decValAux (a : Nat) (l : List Char) : Nat :=
  l.foldl (fun b c => b * 10 + (c.toNat - 48)) a

/-- Filesystem well-formedness as a proposition: every proper nonempty prefix
of an existing entry is an existing directory. -/
def FSWF (fs : FS) : Prop :=
  ∀ q, inFS fs q → ∀ k, 0 < k → k < q.length → q.take k ∈ fs.dirs

/-- The result of the haze stage inside a run whose post-setup filesystem is
`fs1`. -/
def hazeResult (env : Env) (fs1 : FS) : FS × List Event :=
  process_haze_removal env (scan_input_files fs1) fs1

def atcorResult (env : Env) (fs1 : FS) : FS × List Event :=
  process_atmospheric_correction env (hazeResult env fs1).1

def mosaicResult (env : Env) (fs1 : FS) : FS × List Event :=
  create_mosaic env (atcorResult env fs1).1

def exportResult (env : Env) (fs1 : FS) : FS × List Event :=
  export_to_tif env (mosaicResult env fs1).1

/-- The event trace of a run that passes confirmation and discovery. -/
def pipelineTrace (env : Env) (fs1 : FS) : List Event :=
  (hazeResult env fs1).2 ++ (atcorResult env fs1).2 ++ (mosaicResult env fs1).2 ++
    (exportResult env fs1).2 ++ [Event.notify]

/-- The output-raster argument of a haze call event. -/
def hazeFiloOf : Event → FPath
  | .hazeCall _ _ _ filo => filo
  | _ => []

def atcorFiloOf : Event → FPath
  | .atcorCall _ _ filo => filo
  | _ => []

/-! ### Concrete environments and filesystems for witnesses -/

/-- Every oracle succeeds; the user types `y`. -/
def envAllOk : Env :=
  { confirmInput := "y".data, rmOk := fun _ => true, mkOk := fun _ => true,
    hazeOk := fun _ => true, atcorOk := fun _ => true,
    automosOk := true, fexportOk := true }

/-- Every external processing call raises; setup oracles succeed. -/
def envAllFail : Env :=
  { confirmInput := "y".data, rmOk := fun _ => true, mkOk := fun _ => true,
    hazeOk := fun _ => false, atcorOk := fun _ => false,
    automosOk := false, fexportOk := false }

/-- The user declines the confirmation prompt. -/
def envDecline : Env :=
  { confirmInput := "n".data, rmOk := fun _ => true, mkOk := fun _ => true,
    hazeOk := fun _ => true, atcorOk := fun _ => true,
    automosOk := true, fexportOk := true }

/-- The `hazerem` call for the first scene raises, every other call
succeeds. -/
def envHaze1Fails : Env :=
  { confirmInput := "y".data, rmOk := fun _ => true, mkOk := fun _ => true,
    hazeOk := fun i => i != 1, atcorOk := fun _ => true,
    automosOk := true, fexportOk := true }

/-- A working directory holding two scenes plus a stale haze output left
over from a previous run. -/
def fsW : FS :=
  { dirs := [["d:"], working_dir, working_dir ++ ["scene1"], working_dir ++ ["scene2"],
      haze_out],
    files := [working_dir ++ ["scene1", "LC08_A_MTL.txt"],
      working_dir ++ ["scene2", "LC08_B_MTL.txt"],
      haze_out ++ ["stale_MTL.txt"]] }

/-- A working directory with no scene metadata files at all. -/
def fsNoScenes : FS := { dirs := [["d:"], working_dir], files := [] }

/-- The filesystem produced by a successful setup pass over `fsW` (the setup
pass only consults the `rmOk`/`mkOk` oracles, which agree across the
concrete environments above). -/
def fsW1 : FS :=
  match setup_directories envAllOk fsW with
  | .ok x => x
  | .error _ => fsW

/-- The filesystem produced by a successful setup pass over `fsNoScenes`. -/
def fsAfterSetup : FS :=
  match setup_directories envAllOk fsNoScenes with
  | .ok x => x
  | .error _ => fsNoScenes

/-! ## Helper lemmas: characters and Python string operations -/

theorem char_toNat_ofNat_lt {n : Nat} (h : n < 55296) : (Char.ofNat n).toNat = n := by
  have hv : n.isValidChar := Or.inl h
  rw [Char.ofNat, dif_pos hv]
  rfl

theorem isPySpace_toLower (c : Char) : isPySpace c.toLower = isPySpace c := by
  simp only [Char.toLower]
  split
  case isTrue h =>
    have h1 : (Char.ofNat (c.toNat + 32)).toNat = c.toNat + 32 :=
      char_toNat_ofNat_lt (by omega)
    have h2 : isPySpace (Char.ofNat (c.toNat + 32)) = false := by
      simp only [isPySpace, h1, Bool.or_eq_false_iff, beq_eq_false_iff_ne, ne_eq]
      omega
    have h3 : isPySpace c = false := by
      simp only [isPySpace, Bool.or_eq_false_iff, beq_eq_false_iff_ne, ne_eq]
      omega
    rw [h2, h3]
  case isFalse h => rfl

theorem pyStrip_pyLower (l : List Char) : pyStrip (pyLower l) = pyLower (pyStrip l) := by
  unfold pyStrip pyLower
  have hcomp : (isPySpace ∘ Char.toLower) = isPySpace := funext isPySpace_toLower
  rw [List.dropWhile_map, hcomp, ← List.map_reverse, List.dropWhile_map, hcomp,
    ← List.map_reverse]

/-! ## Helper lemmas: decimal file names are collision-free -/

theorem natToDecAux_congr :
    ∀ (f1 f2 n : Nat), n < f1 → n < f2 → natToDecAux f1 n = natToDecAux f2 n
  | 0, _, n, h1, _ => absurd h1 (by omega)
  | _ + 1, 0, n, _, h2 => absurd h2 (by omega)
  | f1 + 1, f2 + 1, n, h1, h2 => by
    simp only [natToDecAux]
    by_cases h : n < 10
    · rw [if_pos h, if_pos h]
    · rw [if_neg h, if_neg h]
      have hd : n / 10 < n := Nat.div_lt_self (by omega) (by omega)
      rw [natToDecAux_congr f1 f2 (n / 10) (by omega) (by omega)]

theorem natToDec_small {n : Nat} (h : n < 10) : natToDec n = [Char.ofNat (48 + n)] := by
  unfold natToDec natToDecAux
  rw [if_pos h]

theorem natToDec_large {n : Nat} (h : ¬ n < 10) :
    natToDec n = natToDec (n / 10) ++ [Char.ofNat (48 + n % 10)] := by
  unfold natToDec
  conv_lhs => rw [natToDecAux]
  rw [if_neg h]
  have hd : n / 10 < n := Nat.div_lt_self (by omega) (by omega)
  rw [natToDecAux_congr n (n / 10 + 1) (n / 10) (by omega) (by omega)]

theorem decValAux_append (a : Nat) (l : List Char) (c : Char) :
    decValAux a (l ++ [c]) = (decValAux a l) * 10 + (c.toNat - 48) := by
  simp [decValAux, List.foldl_append]

theorem decValAux_natToDec (n : Nat) :
    ∀ a : Nat, decValAux a (natToDec n) = a * 10 ^ (natToDec n).length + n := by
  induction n using Nat.strong_induction_on with
  | _ n ih =>
    intro a
    by_cases h : n < 10
    · have hc : (Char.ofNat (48 + n)).toNat = 48 + n := char_toNat_ofNat_lt (by omega)
      rw [natToDec_small h]
      simp [decValAux, hc]
    · have hdiv : n / 10 < n := Nat.div_lt_self (by omega) (by omega)
      have hc : (Char.ofNat (48 + n % 10)).toNat = 48 + n % 10 := by
        have hm : n % 10 < 10 := Nat.mod_lt n (by omega)
        exact char_toNat_ofNat_lt (by omega)
      rw [natToDec_large h, decValAux_append, ih (n / 10) hdiv a]
      have hmod : 10 * (n / 10) + n % 10 = n := Nat.div_add_mod n 10
      have hlen : (natToDec (n / 10) ++ [Char.ofNat (48 + n % 10)]).length =
          (natToDec (n / 10)).length + 1 := by simp
      rw [hlen, pow_succ, hc]
      have : 48 + n % 10 - 48 = n % 10 := by omega
      rw [this]
      ring_nf
      omega

theorem natToDec_inj {m n : Nat} (h : natToDec m = natToDec n) : m = n := by
  have hm := decValAux_natToDec m 0
  have hn := decValAux_natToDec n 0
  rw [h] at hm
  omega

theorem hazeName_inj {i j : Nat} (h : hazeName i = hazeName j) : i = j := by
  unfold hazeName at h
  have hd : "hazerem".data ++ natToDec i ++ ".pix".data =
      "hazerem".data ++ natToDec j ++ ".pix".data := congrArg String.data h
  rw [List.append_assoc, List.append_assoc] at hd
  have h1 := List.append_cancel_left hd
  have h2 := List.append_cancel_right h1
  exact natToDec_inj h2

theorem atcorName_inj {i j : Nat} (h : atcorName i = atcorName j) : i = j := by
  unfold atcorName at h
  have hd : "atcor".data ++ natToDec i ++ ".pix".data =
      "atcor".data ++ natToDec j ++ ".pix".data := congrArg String.data h
  rw [List.append_assoc, List.append_assoc] at hd
  have h1 := List.append_cancel_left hd
  have h2 := List.append_cancel_right h1
  exact natToDec_inj h2

/-! ## Helper lemmas: the per-scene loops -/

theorem hazeLoop_fst (env : Env) :
    ∀ (l : List FPath) (i : Nat) (fs : FS),
      (hazeLoop env i fs l).1 = { dirs := fs.dirs, files := fs.files ++ hazeOuts env i l }
  | [], i, fs => by simp [hazeLoop, hazeOuts]
  | image :: rest, i, fs => by
    by_cases h : env.hazeOk i <;>
      simp [hazeLoop, hazeOuts, h, addFile, hazeLoop_fst env rest (i + 1),
        List.append_assoc]

theorem hazeLoop_calls (env : Env) :
    ∀ (l : List FPath) (i : Nat) (fs : FS),
      (hazeLoop env i fs l).2.filter isHazeCallB =
        (enumIdx i l).map fun p =>
          Event.hazeCall p.1 (pstr p.2 ++ "-MS") 40 (haze_out ++ [hazeName p.1])
  | [], i, fs => by simp [hazeLoop, enumIdx]
  | image :: rest, i, fs => by
    by_cases h : env.hazeOk i <;>
      simp [hazeLoop, enumIdx, h, hazeLoop_calls env rest (i + 1),
        List.filter_cons, isHazeCallB]

theorem hazeLoop_errs (env : Env) :
    ∀ (l : List FPath) (i : Nat) (fs : FS) (p : Nat × FPath),
      p ∈ enumIdx i l → env.hazeOk p.1 = false →
      Event.hazeErr p.2 ∈ (hazeLoop env i fs l).2
  | image :: rest, i, fs, p, hp, hfail => by
    rw [enumIdx] at hp
    rcases List.mem_cons.mp hp with heq | htail
    · subst heq
      simp only [hazeLoop]
      rw [hfail]
      simp
    · by_cases h : env.hazeOk i
      · simp only [hazeLoop, h, if_true, List.mem_cons]
        exact Or.inr (hazeLoop_errs env rest (i + 1) _ p htail hfail)
      · simp only [hazeLoop, h, Bool.false_eq_true, if_false, List.mem_cons]
        exact Or.inr (Or.inr (hazeLoop_errs env rest (i + 1) _ p htail hfail))

theorem hazeLoop_shape (env : Env) :
    ∀ (l : List FPath) (i : Nat) (fs : FS) (e : Event),
      e ∈ (hazeLoop env i fs l).2 →
      isAtcorCallB e = false ∧ isAutomosCallB e = false ∧ isFexportCallB e = false
  | image :: rest, i, fs, e, he => by
    by_cases h : env.hazeOk i
    · simp only [hazeLoop, h, if_true, List.mem_cons] at he
      rcases he with he | he
      · subst he; exact ⟨rfl, rfl, rfl⟩
      · exact hazeLoop_shape env rest (i + 1) _ e he
    · simp only [hazeLoop, h, Bool.false_eq_true, if_false, List.mem_cons] at he
      rcases he with he | he | he
      · subst he; exact ⟨rfl, rfl, rfl⟩
      · subst he; exact ⟨rfl, rfl, rfl⟩
      · exact hazeLoop_shape env rest (i + 1) _ e he

theorem atcorLoop_fst (env : Env) :
    ∀ (l : List FPath) (i : Nat) (fs : FS),
      (atcorLoop env i fs l).1 = { dirs := fs.dirs, files := fs.files ++ atcorOuts env i l }
  | [], i, fs => by simp [atcorLoop, atcorOuts]
  | image :: rest, i, fs => by
    by_cases h : env.atcorOk i <;>
      simp [atcorLoop, atcorOuts, h, addFile, atcorLoop_fst env rest (i + 1),
        List.append_assoc]

theorem atcorLoop_calls (env : Env) :
    ∀ (l : List FPath) (i : Nat) (fs : FS),
      (atcorLoop env i fs l).2.filter isAtcorCallB =
        (enumIdx i l).map fun p =>
          Event.atcorCall p.1 p.2 (atcor_out ++ [atcorName p.1])
  | [], i, fs => by simp [atcorLoop, enumIdx]
  | image :: rest, i, fs => by
    by_cases h : env.atcorOk i <;>
      simp [atcorLoop, enumIdx, h, atcorLoop_calls env rest (i + 1),
        List.filter_cons, isAtcorCallB]

theorem atcorLoop_errs (env : Env) :
    ∀ (l : List FPath) (i : Nat) (fs : FS) (p : Nat × FPath),
      p ∈ enumIdx i l → env.atcorOk p.1 = false →
      Event.atcorErr p.2 ∈ (atcorLoop env i fs l).2
  | image :: rest, i, fs, p, hp, hfail => by
    rw [enumIdx] at hp
    rcases List.mem_cons.mp hp with heq | htail
    · subst heq
      simp only [atcorLoop]
      rw [hfail]
      simp
    · by_cases h : env.atcorOk i
      · simp only [atcorLoop, h, if_true, List.mem_cons]
        exact Or.inr (atcorLoop_errs env rest (i + 1) _ p htail hfail)
      · simp only [atcorLoop, h, Bool.false_eq_true, if_false, List.mem_cons]
        exact Or.inr (Or.inr (atcorLoop_errs env rest (i + 1) _ p htail hfail))

theorem atcorLoop_shape (env : Env) :
    ∀ (l : List FPath) (i : Nat) (fs : FS) (e : Event),
      e ∈ (atcorLoop env i fs l).2 →
      isHazeCallB e = false ∧ isAutomosCallB e = false ∧ isFexportCallB e = false
  | image :: rest, i, fs, e, he => by
    by_cases h : env.atcorOk i
    · simp only [atcorLoop, h, if_true, List.mem_cons] at he
      rcases he with he | he
      · subst he; exact ⟨rfl, rfl, rfl⟩
      · exact atcorLoop_shape env rest (i + 1) _ e he
    · simp only [atcorLoop, h, Bool.false_eq_true, if_false, List.mem_cons] at he
      rcases he with he | he | he
      · subst he; exact ⟨rfl, rfl, rfl⟩
      · subst he; exact ⟨rfl, rfl, rfl⟩
      · exact atcorLoop_shape env rest (i + 1) _ e he

/-! ## Helper lemmas: paths and the filesystem model -/

theorem isUnderB_iff {p q : FPath} : isUnderB p q = true ↔ p <+: q := by
  simp [isUnderB]

theorem strictUnderB_iff {p q : FPath} : strictUnderB p q = true ↔ p <+: q ∧ p ≠ q := by
  simp [strictUnderB]

theorem take_below {α : Type} (n : Nat) (l : List α) : l.take n <+: l :=
  List.take_prefix n l

theorem strictPrefix_length {p q : FPath} (h : p <+: q) (hne : p ≠ q) :
    p.length < q.length := by
  have h1 := h.length_le
  rcases Nat.lt_or_ge p.length q.length with hlt | hge
  · exact hlt
  · exact absurd (h.eq_of_length (by omega)) hne

theorem fswfB_fswf {fs : FS} (h : fswfB fs = true) : FSWF fs := by
  intro q hq k hk0 hkl
  unfold fswfB at h
  rw [List.all_eq_true] at h
  have hq' : q ∈ fs.dirs ++ fs.files := by
    rcases hq with h1 | h1
    · exact List.mem_append.mpr (Or.inl h1)
    · exact List.mem_append.mpr (Or.inr h1)
  have h2 := h q hq'
  rw [List.all_eq_true] at h2
  have hk := h2 k (List.mem_range.mpr hkl)
  simp at hk
  rcases hk with hk | hk
  · omega
  · exact hk

theorem inFS_rmtree {rm : FPath → Bool} {p : FPath} {fs : FS} {q : FPath}
    (h : inFS (rmtree_ie rm p fs) q) : inFS fs q := by
  unfold rmtree_ie at h
  split at h
  · rcases h with h | h
    · exact Or.inl (List.mem_filter.mp h).1
    · exact Or.inr (List.mem_filter.mp h).1
  · exact h

theorem mem_ancestors {p q : FPath} :
    q ∈ ancestors p ↔ ∃ k, k < p.length ∧ p.take (k + 1) = q := by
  unfold ancestors
  simp [List.mem_map, List.mem_range]

theorem ancestors_below {p q : FPath} (h : q ∈ ancestors p) : q <+: p := by
  obtain ⟨k, _, hq⟩ := mem_ancestors.mp h
  rw [← hq]
  exact take_below _ _

theorem self_mem_ancestors {p : FPath} (hp : 0 < p.length) : p ∈ ancestors p := by
  refine mem_ancestors.mpr ⟨p.length - 1, by omega, ?_⟩
  have h1 : p.length - 1 + 1 = p.length := by omega
  rw [h1, List.take_length]

theorem anc_strict {d0 d q : FPath} (hq : q ∈ ancestors d)
    (hs : strictUnderB d0 q = true) : strictUnderB d0 d = true := by
  obtain ⟨h1, h2⟩ := strictUnderB_iff.mp hs
  have h3 : q <+: d := ancestors_below hq
  refine strictUnderB_iff.mpr ⟨h1.trans h3, ?_⟩
  intro heq
  subst heq
  have h4 := strictPrefix_length h1 h2
  have h5 := h3.length_le
  omega

theorem mkdir_ok {mk : FPath → Bool} {p : FPath} {fs fs' : FS}
    (h : mkdir_p mk p fs = .ok fs') :
    existsIn fs p = false ∧ fs'.files = fs.files ∧
      (∀ q, q ∈ fs'.dirs ↔ q ∈ fs.dirs ∨ q ∈ ancestors p) := by
  unfold mkdir_p at h
  by_cases h1 : existsIn fs p = true
  · rw [if_pos h1] at h; cases h
  · rw [if_neg h1] at h
    by_cases h2 : mk p = true
    · rw [if_pos h2] at h
      injection h with h
      subst h
      refine ⟨by simpa using h1, rfl, ?_⟩
      intro q
      simp only [List.mem_append, List.mem_filter]
      constructor
      · rintro (hq | ⟨hq, _⟩)
        · exact Or.inl hq
        · exact Or.inr hq
      · rintro (hq | hq)
        · exact Or.inl hq
        · by_cases hc : q ∈ fs.dirs
          · exact Or.inl hc
          · exact Or.inr ⟨hq, by simpa using hc⟩
    · rw [if_neg h2] at h; cases h

theorem rmtree_eq_of_contains {rm : FPath → Bool} {p : FPath} {fs : FS}
    (hcont : fs.dirs.contains p = true) :
    rmtree_ie rm p fs =
      { dirs := fs.dirs.filter fun q => !(isUnderB p q && rm q),
        files := fs.files.filter fun q => !(isUnderB p q && rm q) } := by
  unfold rmtree_ie
  rw [if_pos hcont]

theorem rmtree_eq_of_not_contains {rm : FPath → Bool} {p : FPath} {fs : FS}
    (hcont : ¬ fs.dirs.contains p = true) : rmtree_ie rm p fs = fs := by
  unfold rmtree_ie
  rw [if_neg hcont]

theorem surv_spec {rm : FPath → Bool} {p q : FPath}
    (h : (!(isUnderB p q && rm q)) = true) :
    isUnderB p q = false ∨ rm q = false := by
  by_cases h1 : isUnderB p q = true
  · right
    by_cases h2 : rm q = true
    · rw [h1, h2] at h; cases h
    · simpa using h2
  · left
    simpa using h1

theorem FSWF_rmtree {rm : FPath → Bool} {p : FPath} {fs : FS}
    (hrm : RmClosed rm) (hwf : FSWF fs) : FSWF (rmtree_ie rm p fs) := by
  by_cases hcont : fs.dirs.contains p = true
  case neg => rw [rmtree_eq_of_not_contains hcont]; exact hwf
  case pos =>
    rw [rmtree_eq_of_contains hcont]
    intro q hq k hk0 hkl
    have hqsurv : (!(isUnderB p q && rm q)) = true := by
      rcases hq with hq | hq
      · exact (List.mem_filter.mp hq).2
      · exact (List.mem_filter.mp hq).2
    have hqfs : inFS fs q := by
      rcases hq with hq | hq
      · exact Or.inl (List.mem_filter.mp hq).1
      · exact Or.inr (List.mem_filter.mp hq).1
    have htk : q.take k ∈ fs.dirs := hwf q hqfs k hk0 hkl
    refine List.mem_filter.mpr ⟨htk, ?_⟩
    by_cases hu : isUnderB p (q.take k) = true
    · by_cases hr : rm (q.take k) = true
      · exfalso
        have hpq : p <+: q := (isUnderB_iff.mp hu).trans (take_below _ _)
        have hrq : rm q = true := hrm _ _ hr (isUnderB_iff.mpr (take_below _ _))
        rcases surv_spec hqsurv with hs | hs
        · rw [isUnderB_iff.mpr hpq] at hs; cases hs
        · rw [hrq] at hs; cases hs
      · simp only [Bool.not_eq_eq_eq_not, Bool.not_true, Bool.and_eq_false_iff]
        right
        simpa using hr
    · simp only [Bool.not_eq_eq_eq_not, Bool.not_true, Bool.and_eq_false_iff]
      left
      simpa using hu

theorem FSWF_mkdir {mk : FPath → Bool} {p : FPath} {fs fs' : FS}
    (h : mkdir_p mk p fs = .ok fs') (hwf : FSWF fs) : FSWF fs' := by
  obtain ⟨_, hfiles, hdirs⟩ := mkdir_ok h
  intro q hq k hk0 hkl
  have step : q ∈ fs.dirs ∨ q ∈ fs.files ∨ q ∈ ancestors p := by
    rcases hq with hq | hq
    · rcases (hdirs q).mp hq with hq | hq
      · exact Or.inl hq
      · exact Or.inr (Or.inr hq)
    · rw [hfiles] at hq
      exact Or.inr (Or.inl hq)
  rcases step with hq' | hq' | hq'
  · exact (hdirs _).mpr (Or.inl (hwf q (Or.inl hq') k hk0 hkl))
  · exact (hdirs _).mpr (Or.inl (hwf q (Or.inr hq') k hk0 hkl))
  · obtain ⟨j, hj, hjq⟩ := mem_ancestors.mp hq'
    have hlen : q.length = j + 1 := by
      rw [← hjq, List.length_take]
      omega
    refine (hdirs _).mpr (Or.inr (mem_ancestors.mpr ⟨k - 1, by omega, ?_⟩))
    have hk1 : k - 1 + 1 = k := by omega
    rw [hk1, ← hjq, List.take_take]
    congr 1
    omega

/-! ## Helper lemmas: the setup loop body -/

theorem rmtree_dirs_sub {rm : FPath → Bool} {p : FPath} {fs : FS} {q : FPath}
    (h : q ∈ (rmtree_ie rm p fs).dirs) : q ∈ fs.dirs := by
  unfold rmtree_ie at h
  split at h
  · exact (List.mem_filter.mp h).1
  · exact h

theorem rmtree_files_sub {rm : FPath → Bool} {p : FPath} {fs : FS} {q : FPath}
    (h : q ∈ (rmtree_ie rm p fs).files) : q ∈ fs.files := by
  unfold rmtree_ie at h
  split at h
  · exact (List.mem_filter.mp h).1
  · exact h

theorem setupStep_inv {env : Env} {fs : FS} {d : FPath} {fs' : FS}
    (h : setupStep env fs d = .ok fs') :
    ∃ pre : FS,
      mkdir_p env.mkOk d pre = .ok fs'
      ∧ ((existsIn fs d = true ∧ pre = rmtree_ie env.rmOk d fs)
          ∨ (existsIn fs d = false ∧ pre = fs))
      ∧ (∀ q, q ∈ pre.dirs → q ∈ fs.dirs)
      ∧ (∀ q, q ∈ pre.files → q ∈ fs.files) := by
  unfold setupStep at h
  by_cases he : existsIn fs d = true
  · rw [if_pos he] at h
    exact ⟨rmtree_ie env.rmOk d fs, h, Or.inl ⟨he, rfl⟩,
      fun q hq => rmtree_dirs_sub hq, fun q hq => rmtree_files_sub hq⟩
  · rw [if_neg he] at h
    exact ⟨fs, h, Or.inr ⟨by simpa using he, rfl⟩, fun q hq => hq, fun q hq => hq⟩

theorem setupStep_files_sub {env : Env} {fs : FS} {d : FPath} {fs' : FS}
    (h : setupStep env fs d = .ok fs') : ∀ q ∈ fs'.files, q ∈ fs.files := by
  obtain ⟨pre, hmk, _, _, hfsub⟩ := setupStep_inv h
  obtain ⟨_, hfiles, _⟩ := mkdir_ok hmk
  intro q hq
  rw [hfiles] at hq
  exact hfsub q hq

theorem setupStep_dirs_sub {env : Env} {fs : FS} {d : FPath} {fs' : FS}
    (h : setupStep env fs d = .ok fs') :
    ∀ q ∈ fs'.dirs, q ∈ fs.dirs ∨ q ∈ ancestors d := by
  obtain ⟨pre, hmk, _, hdsub, _⟩ := setupStep_inv h
  obtain ⟨_, _, hdirs⟩ := mkdir_ok hmk
  intro q hq
  rcases (hdirs q).mp hq with hq | hq
  · exact Or.inl (hdsub q hq)
  · exact Or.inr hq

theorem setupStep_mem_dirs {env : Env} {fs : FS} {d : FPath} {fs' : FS}
    (hd : 0 < d.length) (h : setupStep env fs d = .ok fs') : d ∈ fs'.dirs := by
  obtain ⟨pre, hmk, _, _, _⟩ := setupStep_inv h
  obtain ⟨_, _, hdirs⟩ := mkdir_ok hmk
  exact (hdirs d).mpr (Or.inr (self_mem_ancestors hd))

theorem setupStep_dirs_pres {env : Env} {fs : FS} {d : FPath} {fs' : FS}
    (h : setupStep env fs d = .ok fs') :
    ∀ q ∈ fs.dirs, isUnderB d q = false → q ∈ fs'.dirs := by
  obtain ⟨pre, hmk, hpre, _, _⟩ := setupStep_inv h
  obtain ⟨_, _, hdirs⟩ := mkdir_ok hmk
  intro q hq hu
  refine (hdirs q).mpr (Or.inl ?_)
  rcases hpre with ⟨_, hpre⟩ | ⟨_, hpre⟩
  · subst hpre
    unfold rmtree_ie
    split
    · refine List.mem_filter.mpr ⟨hq, ?_⟩
      rw [hu]
      rfl
    · exact hq
  · subst hpre
    exact hq

theorem setupStep_fswf {env : Env} {fs : FS} {d : FPath} {fs' : FS}
    (hrm : RmClosed env.rmOk) (hwf : FSWF fs)
    (h : setupStep env fs d = .ok fs') : FSWF fs' := by
  obtain ⟨pre, hmk, hpre, _, _⟩ := setupStep_inv h
  have hwfpre : FSWF pre := by
    rcases hpre with ⟨_, hpre⟩ | ⟨_, hpre⟩
    · subst hpre; exact FSWF_rmtree hrm hwf
    · subst hpre; exact hwf
  exact FSWF_mkdir hmk hwfpre

theorem setupStep_establishes {env : Env} {fs : FS} {d : FPath} {fs' : FS}
    (hrm : RmClosed env.rmOk) (hwf : FSWF fs) (hd : 0 < d.length)
    (h : setupStep env fs d = .ok fs') : dirEmptyIn fs' d := by
  obtain ⟨pre, hmk, hpre, hdsub, hfsub⟩ := setupStep_inv h
  obtain ⟨hex, hfiles, hdirs⟩ := mkdir_ok hmk
  intro q hq
  cases hb : strictUnderB d q
  · rfl
  · exfalso
    obtain ⟨hdq, hdne⟩ := strictUnderB_iff.mp hb
    have hqpre : inFS pre q := by
      rcases hq with hq | hq
      · rcases (hdirs q).mp hq with hq | hq
        · exact Or.inl hq
        · exfalso
          have h1 : q <+: d := ancestors_below hq
          have h2 := strictPrefix_length hdq hdne
          have h3 := h1.length_le
          omega
      · rw [hfiles] at hq
        exact Or.inr hq
    rcases hpre with ⟨hfs, hpre⟩ | ⟨hfs, hpre⟩
    · subst hpre
      by_cases hdd : fs.dirs.contains d = true
      · have hrd : env.rmOk d = true := by
          by_contra hrd
          have hdmem : d ∈ fs.dirs := by simpa using hdd
          have hdsurv : d ∈ (rmtree_ie env.rmOk d fs).dirs := by
            rw [rmtree_eq_of_contains hdd]
            refine List.mem_filter.mpr ⟨hdmem, ?_⟩
            have hrd' : env.rmOk d = false := by simpa using hrd
            rw [hrd']
            simp
          have hcon : (rmtree_ie env.rmOk d fs).dirs.contains d = true := by
            simpa using hdsurv
          unfold existsIn at hex
          rw [hcon] at hex
          simp at hex
        rw [rmtree_eq_of_contains hdd] at hqpre
        have hsurv : (!(isUnderB d q && env.rmOk q)) = true := by
          rcases hqpre with hq1 | hq1
          · exact (List.mem_filter.mp hq1).2
          · exact (List.mem_filter.mp hq1).2
        rcases surv_spec hsurv with h1 | h1
        · rw [isUnderB_iff.mpr hdq] at h1; cases h1
        · have h2 := hrm d q hrd (isUnderB_iff.mpr hdq)
          rw [h2] at h1; cases h1
      · rw [rmtree_eq_of_not_contains hdd] at hex
        rw [hfs] at hex
        cases hex
    · rw [hpre] at hqpre
      have h2 := strictPrefix_length hdq hdne
      have htake : q.take d.length = d := (List.prefix_iff_eq_take.mp hdq).symm
      have hdin : d ∈ fs.dirs := by
        have h3 := hwf q hqpre d.length hd h2
        rwa [htake] at h3
      have hcon : fs.dirs.contains d = true := by simpa using hdin
      unfold existsIn at hfs
      rw [hcon] at hfs
      simp at hfs

theorem setupStep_new_under {env : Env} {fs : FS} {d : FPath} {fs' : FS}
    (h : setupStep env fs d = .ok fs') {d0 : FPath} (hemp : dirEmptyIn fs d0) :
    ∀ q, inFS fs' q → strictUnderB d0 q = true → q ∈ ancestors d := by
  obtain ⟨pre, hmk, _, hdsub, hfsub⟩ := setupStep_inv h
  obtain ⟨_, hfiles, hdirs⟩ := mkdir_ok hmk
  intro q hq hs
  rcases hq with hq | hq
  · rcases (hdirs q).mp hq with hq | hq
    · exfalso
      have h1 := hemp q (Or.inl (hdsub q hq))
      rw [hs] at h1
      cases h1
    · exact hq
  · exfalso
    rw [hfiles] at hq
    have h1 := hemp q (Or.inr (hfsub q hq))
    rw [hs] at h1
    cases h1

theorem setupStep_preserves_empty {env : Env} {fs : FS} {d : FPath} {fs' : FS}
    (h : setupStep env fs d = .ok fs') {d0 : FPath} (hemp : dirEmptyIn fs d0)
    (hnd : strictUnderB d0 d = false) : dirEmptyIn fs' d0 := by
  intro q hq
  cases hb : strictUnderB d0 q
  · rfl
  · exfalso
    have hanc := setupStep_new_under h hemp q hq hb
    have h1 := anc_strict hanc hb
    rw [hnd] at h1
    cases h1

/-! ## Helper lemmas: the whole setup pass and the run controller -/

theorem except_bind_ok {α β : Type} {x : Except Err α} {f : α → Except Err β} {b : β}
    (h : x >>= f = .ok b) : ∃ a, x = .ok a ∧ f a = .ok b := by
  cases x with
  | error e => simp [Bind.bind, Except.bind] at h
  | ok a => exact ⟨a, rfl, by simpa [Bind.bind, Except.bind] using h⟩

theorem setup_unfold (env : Env) (fs : FS) :
    setup_directories env fs =
      (setupStep env fs haze_out >>= fun fs1 =>
        setupStep env fs1 atcor_out >>= fun fs2 =>
          setupStep env fs2 mosaic_out >>= fun fs3 =>
            setupStep env fs3 shp_out) := by
  simp only [setup_directories, directories, List.foldlM, bind_pure]

theorem setup_inv {env : Env} {fs fs' : FS}
    (h : setup_directories env fs = .ok fs') :
    ∃ fs1 fs2 fs3, setupStep env fs haze_out = .ok fs1
      ∧ setupStep env fs1 atcor_out = .ok fs2
      ∧ setupStep env fs2 mosaic_out = .ok fs3
      ∧ setupStep env fs3 shp_out = .ok fs' := by
  rw [setup_unfold] at h
  obtain ⟨a1, h1, h⟩ := except_bind_ok h
  obtain ⟨a2, h2, h⟩ := except_bind_ok h
  obtain ⟨a3, h3, h⟩ := except_bind_ok h
  exact ⟨a1, a2, a3, h1, h2, h3, h⟩

theorem setup_ok_facts {env : Env} {fs fs' : FS}
    (hrm : RmClosed env.rmOk) (hwf : FSWF fs)
    (h : setup_directories env fs = .ok fs') :
    (haze_out ∈ fs'.dirs ∧ atcor_out ∈ fs'.dirs ∧ mosaic_out ∈ fs'.dirs ∧
      shp_out ∈ fs'.dirs)
    ∧ dirEmptyIn fs' haze_out
    ∧ dirEmptyIn fs' atcor_out
    ∧ dirEmptyIn fs' shp_out
    ∧ (∀ q, inFS fs' q → strictUnderB mosaic_out q = true → q = shp_out)
    ∧ (∀ q ∈ fs'.files, q ∈ fs.files) := by
  obtain ⟨fs1, fs2, fs3, h1, h2, h3, h4⟩ := setup_inv h
  have hwf1 := setupStep_fswf hrm hwf h1
  have hwf2 := setupStep_fswf hrm hwf1 h2
  have hwf3 := setupStep_fswf hrm hwf2 h3
  have hm1 : haze_out ∈ fs'.dirs :=
    setupStep_dirs_pres h4 _
      (setupStep_dirs_pres h3 _
        (setupStep_dirs_pres h2 _ (setupStep_mem_dirs (by decide) h1) (by decide))
        (by decide))
      (by decide)
  have hm2 : atcor_out ∈ fs'.dirs :=
    setupStep_dirs_pres h4 _
      (setupStep_dirs_pres h3 _ (setupStep_mem_dirs (by decide) h2) (by decide))
      (by decide)
  have hm3 : mosaic_out ∈ fs'.dirs :=
    setupStep_dirs_pres h4 _ (setupStep_mem_dirs (by decide) h3) (by decide)
  have hm4 : shp_out ∈ fs'.dirs := setupStep_mem_dirs (by decide) h4
  have he1 : dirEmptyIn fs' haze_out :=
    setupStep_preserves_empty h4
      (setupStep_preserves_empty h3
        (setupStep_preserves_empty h2
          (setupStep_establishes hrm hwf (by decide) h1) (by decide))
        (by decide))
      (by decide)
  have he2 : dirEmptyIn fs' atcor_out :=
    setupStep_preserves_empty h4
      (setupStep_preserves_empty h3
        (setupStep_establishes hrm hwf1 (by decide) h2) (by decide))
      (by decide)
  have he4 : dirEmptyIn fs' shp_out :=
    setupStep_establishes hrm hwf3 (by decide) h4
  have he3 : dirEmptyIn fs3 mosaic_out :=
    setupStep_establishes hrm hwf2 (by decide) h3
  have hmos : ∀ q, inFS fs' q → strictUnderB mosaic_out q = true → q = shp_out := by
    intro q hq hs
    have hanc := setupStep_new_under h4 he3 q hq hs
    revert hs
    revert hanc
    have hconc : ∀ q ∈ ancestors shp_out,
        strictUnderB mosaic_out q = true → q = shp_out := by decide
    exact hconc q
  have hfsub : ∀ q ∈ fs'.files, q ∈ fs.files := by
    intro q hq
    exact setupStep_files_sub h1 _
      (setupStep_files_sub h2 _
        (setupStep_files_sub h3 _ (setupStep_files_sub h4 _ hq)))
  exact ⟨⟨hm1, hm2, hm3, hm4⟩, he1, he2, he4, hmos, hfsub⟩

theorem run_declined {env : Env} (fs : FS)
    (h : confirm_execution env.confirmInput = false) :
    run env fs = (.exited 1, fs, []) := by
  unfold run
  rw [h]
  rfl

theorem run_error_prop {env : Env} {fs : FS} {e : Err}
    (hc : confirm_execution env.confirmInput = true)
    (hs : setup_directories env fs = .error e) :
    run env fs = (.errored e, fs, []) := by
  unfold run
  rw [hc, hs]
  rfl

theorem run_noscenes {env : Env} {fs fs1 : FS}
    (hc : confirm_execution env.confirmInput = true)
    (hs : setup_directories env fs = .ok fs1)
    (hsc : scan_input_files fs1 = []) :
    run env fs = (.exited 1, fs1, [Event.logNoScenes]) := by
  unfold run
  rw [hc, hs]
  simp only [hsc, List.isEmpty_nil, if_true]

theorem run_ok_eq {env : Env} {fs fs1 : FS}
    (hc : confirm_execution env.confirmInput = true)
    (hs : setup_directories env fs = .ok fs1)
    (hne : scan_input_files fs1 ≠ []) :
    run env fs = (RunResult.notified, (exportResult env fs1).1, pipelineTrace env fs1) := by
  unfold run
  rw [hc, hs]
  have hie : (scan_input_files fs1).isEmpty = false := by
    cases hl : scan_input_files fs1
    · exact absurd hl hne
    · rfl
  simp only [hie, Bool.false_eq_true, if_false]
  rfl

/-! ## Helper lemmas: mosaic/export traces and the haze-output glob -/

theorem create_mosaic_filters (env : Env) (fs : FS) :
    (create_mosaic env fs).2.filter isAutomosCallB =
      [Event.automosCall atcor_out "4,3,2" "full" (mosaic_out ++ ["mosaic.pix"])
        "adaptive" "overlay" "mindiff" (shp_out ++ ["cutlines.shp"])]
    ∧ (create_mosaic env fs).2.filter isFexportCallB = []
    ∧ (create_mosaic env fs).2.filter isAtcorCallB = []
    ∧ (create_mosaic env fs).2.filter isHazeCallB = [] := by
  cases h : env.automosOk <;>
    simp [create_mosaic, h, isAutomosCallB, isFexportCallB, isAtcorCallB, isHazeCallB]

theorem export_filters (env : Env) (fs : FS) :
    (export_to_tif env fs).2.filter isFexportCallB =
      [Event.fexportCall (mosaic_out ++ ["mosaic.pix"]) (mosaic_out ++ ["mosaic.tif"])
        [1, 2, 3] "TIF"]
    ∧ (export_to_tif env fs).2.filter isAutomosCallB = []
    ∧ (export_to_tif env fs).2.filter isAtcorCallB = []
    ∧ (export_to_tif env fs).2.filter isHazeCallB = [] := by
  cases h : env.fexportOk <;>
    simp [export_to_tif, h, isAutomosCallB, isFexportCallB, isAtcorCallB, isHazeCallB]

theorem endsWith_pix_hazeName (i : Nat) : endsWithStr ".pix" (hazeName i) = true := by
  unfold endsWithStr hazeName
  rw [List.isSuffixOf_iff_suffix]
  exact List.suffix_append _ _

theorem isPixChild_hazeOut (i : Nat) :
    isPixChild haze_out (haze_out ++ [hazeName i]) = true := by
  unfold isPixChild
  rw [Bool.and_eq_true, Bool.and_eq_true]
  refine ⟨⟨?_, ?_⟩, ?_⟩
  · simp
  · exact isUnderB_iff.mpr (List.prefix_append _ _)
  · unfold pathName
    rw [List.getLastD_concat]
    exact endsWith_pix_hazeName i

theorem strictUnderB_of_pixChild {d q : FPath} (h : isPixChild d q = true) :
    strictUnderB d q = true := by
  unfold isPixChild at h
  rw [Bool.and_eq_true, Bool.and_eq_true] at h
  obtain ⟨⟨hlen, hund⟩, _⟩ := h
  have hlen' : q.length = d.length + 1 := by simpa using hlen
  refine strictUnderB_iff.mpr ⟨isUnderB_iff.mp hund, ?_⟩
  intro heq
  rw [heq] at hlen'
  omega

theorem hazeOuts_all_pix (env : Env) :
    ∀ (l : List FPath) (i : Nat),
      (hazeOuts env i l).filter (isPixChild haze_out) = hazeOuts env i l
  | [], i => rfl
  | _ :: rest, i => by
    by_cases h : env.hazeOk i <;>
      simp [hazeOuts, h, List.filter_cons, isPixChild_hazeOut,
        hazeOuts_all_pix env rest (i + 1)]

theorem globPix_post_haze (env : Env) (fs1 : FS) (l : List FPath) (i : Nat)
    (hemp : dirEmptyIn fs1 haze_out) :
    globPix haze_out { dirs := fs1.dirs, files := fs1.files ++ hazeOuts env i l } =
      hazeOuts env i l := by
  unfold globPix
  show (fs1.files ++ hazeOuts env i l).filter (isPixChild haze_out) = hazeOuts env i l
  rw [List.filter_append, hazeOuts_all_pix env l i]
  have hnil : fs1.files.filter (isPixChild haze_out) = [] := by
    refine List.filter_eq_nil_iff.mpr ?_
    intro q hq hp
    have hs := strictUnderB_of_pixChild hp
    have h1 := hemp q (Or.inr hq)
    rw [hs] at h1
    cases h1
  rw [hnil, List.nil_append]

theorem hazeOuts_length (env : Env) :
    ∀ (l : List FPath) (i : Nat),
      (hazeOuts env i l).length = (enumIdx i l).countP (fun p => env.hazeOk p.1)
  | [], i => rfl
  | _ :: rest, i => by
    by_cases h : env.hazeOk i <;>
      simp [hazeOuts, h, enumIdx, List.countP_cons, hazeOuts_length env rest (i + 1)]

/-! ## Helper lemmas: enumeration and name freshness -/

theorem enumIdx_length {α : Type} :
    ∀ (l : List α) (i : Nat), (enumIdx i l).length = l.length
  | [], _ => rfl
  | _ :: rest, i => by simp [enumIdx, enumIdx_length rest (i + 1)]

theorem enumIdx_fst_ge {α : Type} :
    ∀ (l : List α) (i : Nat) (p : Nat × α), p ∈ enumIdx i l → i ≤ p.1
  | a :: rest, i, p, hp => by
    rw [enumIdx] at hp
    rcases List.mem_cons.mp hp with heq | htail
    · subst heq; exact Nat.le_refl i
    · have := enumIdx_fst_ge rest (i + 1) p htail
      omega

theorem names_nodup {α : Type} (name : Nat → String)
    (hinj : ∀ a b, name a = name b → a = b) (base : FPath) :
    ∀ (l : List α) (i : Nat),
      ((enumIdx i l).map fun p => base ++ [name p.1]).Nodup
  | [], _ => List.nodup_nil
  | a :: rest, i => by
    rw [enumIdx, List.map_cons]
    refine List.nodup_cons.mpr ⟨?_, names_nodup name hinj base rest (i + 1)⟩
    intro hmem
    obtain ⟨p, hp, heq⟩ := List.mem_map.mp hmem
    have h1 : name p.1 = name i := by
      have h2 := List.append_cancel_left heq
      injection h2
    have h3 := hinj _ _ h1
    have h4 := enumIdx_fst_ge rest (i + 1) p hp
    omega

theorem setup_shp_not_file {env : Env} {fs fs' : FS}
    (h : setup_directories env fs = .ok fs') : shp_out ∉ fs'.files := by
  obtain ⟨fs1, fs2, fs3, _, _, _, h4⟩ := setup_inv h
  obtain ⟨pre, hmk, _, _, _⟩ := setupStep_inv h4
  obtain ⟨hex, hfiles, _⟩ := mkdir_ok hmk
  intro hmem
  rw [hfiles] at hmem
  have hcon : pre.files.contains shp_out = true := by simpa using hmem
  unfold existsIn at hex
  rw [hcon] at hex
  simp at hex

theorem hazeLoop_no_other (env : Env) (l : List FPath) (i : Nat) (fs : FS) :
    (hazeLoop env i fs l).2.filter isAtcorCallB = []
    ∧ (hazeLoop env i fs l).2.filter isAutomosCallB = []
    ∧ (hazeLoop env i fs l).2.filter isFexportCallB = [] := by
  refine ⟨List.filter_eq_nil_iff.mpr ?_, List.filter_eq_nil_iff.mpr ?_,
    List.filter_eq_nil_iff.mpr ?_⟩ <;>
      intro e he
  · have h := hazeLoop_shape env l i fs e he
    simp [h.1]
  · have h := hazeLoop_shape env l i fs e he
    simp [h.2.1]
  · have h := hazeLoop_shape env l i fs e he
    simp [h.2.2]

theorem atcorLoop_no_other (env : Env) (l : List FPath) (i : Nat) (fs : FS) :
    (atcorLoop env i fs l).2.filter isHazeCallB = []
    ∧ (atcorLoop env i fs l).2.filter isAutomosCallB = []
    ∧ (atcorLoop env i fs l).2.filter isFexportCallB = [] := by
  refine ⟨List.filter_eq_nil_iff.mpr ?_, List.filter_eq_nil_iff.mpr ?_,
    List.filter_eq_nil_iff.mpr ?_⟩ <;>
      intro e he
  · have h := atcorLoop_shape env l i fs e he
    simp [h.1]
  · have h := atcorLoop_shape env l i fs e he
    simp [h.2.1]
  · have h := atcorLoop_shape env l i fs e he
    simp [h.2.2]

/-! ## Helper lemmas: filtering a whole pipeline trace -/

theorem pipelineTrace_filters (env : Env) (fs1 : FS) :
    (pipelineTrace env fs1).filter isAutomosCallB =
      [Event.automosCall atcor_out "4,3,2" "full" (mosaic_out ++ ["mosaic.pix"])
        "adaptive" "overlay" "mindiff" (shp_out ++ ["cutlines.shp"])]
    ∧ (pipelineTrace env fs1).filter isFexportCallB =
      [Event.fexportCall (mosaic_out ++ ["mosaic.pix"]) (mosaic_out ++ ["mosaic.tif"])
        [1, 2, 3] "TIF"]
    ∧ (pipelineTrace env fs1).filter isAtcorCallB =
      (atcorResult env fs1).2.filter isAtcorCallB := by
  have e2a : (hazeResult env fs1).2.filter isAutomosCallB = [] :=
    (hazeLoop_no_other env (scan_input_files fs1) 1 fs1).2.1
  have e2b : (hazeResult env fs1).2.filter isFexportCallB = [] :=
    (hazeLoop_no_other env (scan_input_files fs1) 1 fs1).2.2
  have e2c : (hazeResult env fs1).2.filter isAtcorCallB = [] :=
    (hazeLoop_no_other env (scan_input_files fs1) 1 fs1).1
  have e3a : (atcorResult env fs1).2.filter isAutomosCallB = [] :=
    (atcorLoop_no_other env (globPix haze_out (hazeResult env fs1).1) 1
      (hazeResult env fs1).1).2.1
  have e3b : (atcorResult env fs1).2.filter isFexportCallB = [] :=
    (atcorLoop_no_other env (globPix haze_out (hazeResult env fs1).1) 1
      (hazeResult env fs1).1).2.2
  have e4 := create_mosaic_filters env (atcorResult env fs1).1
  have e4a : (mosaicResult env fs1).2.filter isAutomosCallB =
      [Event.automosCall atcor_out "4,3,2" "full" (mosaic_out ++ ["mosaic.pix"])
        "adaptive" "overlay" "mindiff" (shp_out ++ ["cutlines.shp"])] := e4.1
  have e4b : (mosaicResult env fs1).2.filter isFexportCallB = [] := e4.2.1
  have e4c : (mosaicResult env fs1).2.filter isAtcorCallB = [] := e4.2.2.1
  have e5 := export_filters env (mosaicResult env fs1).1
  have e5a : (exportResult env fs1).2.filter isFexportCallB =
      [Event.fexportCall (mosaic_out ++ ["mosaic.pix"]) (mosaic_out ++ ["mosaic.tif"])
        [1, 2, 3] "TIF"] := e5.1
  have e5b : (exportResult env fs1).2.filter isAutomosCallB = [] := e5.2.1
  have e5c : (exportResult env fs1).2.filter isAtcorCallB = [] := e5.2.2.1
  refine ⟨?_, ?_, ?_⟩
  · unfold pipelineTrace
    simp only [List.filter_append]
    rw [e2a, e3a, e4a, e5b]
    rfl
  · unfold pipelineTrace
    simp only [List.filter_append]
    rw [e2b, e3b, e4b, e5a]
    rfl
  · unfold pipelineTrace
    simp only [List.filter_append]
    rw [e2c, e4c, e5c]
    simp [isAtcorCallB]

theorem atcorResult_calls (env : Env) (fs1 : FS) :
    (atcorResult env fs1).2.filter isAtcorCallB =
      (enumIdx 1 (globPix haze_out (hazeResult env fs1).1)).map
        (fun p => Event.atcorCall p.1 p.2 (atcor_out ++ [atcorName p.1])) :=
  atcorLoop_calls env (globPix haze_out (hazeResult env fs1).1) 1 (hazeResult env fs1).1

theorem run_glob_eq {env : Env} {fs fs1 : FS}
    (hrm : RmClosed env.rmOk) (hwf : FSWF fs)
    (hs : setup_directories env fs = .ok fs1) :
    globPix haze_out (hazeResult env fs1).1 =
      hazeOuts env 1 (scan_input_files fs1) := by
  have hemp := (setup_ok_facts hrm hwf hs).2.1
  have hfst : (hazeResult env fs1).1 =
      { dirs := fs1.dirs,
        files := fs1.files ++ hazeOuts env 1 (scan_input_files fs1) } :=
    hazeLoop_fst env (scan_input_files fs1) 1 fs1
  rw [hfst]
  exact globPix_post_haze env fs1 (scan_input_files fs1) 1 hemp

/-! ## Claim theorems -/

/-- C8: the confirmation prompt accepts exactly those input lines whose
whitespace-stripped, lowercased form starts with the character `y` — so
`y`, `Y`, `yes`, `yeah`, `  Yep` all confirm, and every other input,
including the empty line, `n` and `no`, declines.  The decision
`confirm_execution` is a pure (hence deterministic) function of the input
line. -/
theorem C8_confirm_prompt_characterization :
    (∀ line : List Char,
      confirm_execution line = pyStartswith ['y'] (pyLower (pyStrip line)))
    ∧ confirm_execution "y".data = true
    ∧ confirm_execution "Y".data = true
    ∧ confirm_execution "yes".data = true
    ∧ confirm_execution "yeah".data = true
    ∧ confirm_execution " Yep".data = true
    ∧ confirm_execution "".data = false
    ∧ confirm_execution "n".data = false
    ∧ confirm_execution "no".data = false := by
  refine ⟨?_, by decide, by decide, by decide, by decide, by decide,
    by decide, by decide, by decide⟩
  intro line
  unfold confirm_execution
  rw [pyStrip_pyLower]

/-- C1: whenever the user confirms execution and at least one scene is
discovered (discovery presupposes that the directory setup returned
normally), the run controller reaches the Notified state and the trace ends
with the completion notification — for EVERY outcome of the haze-removal,
atmospheric-correction, mosaic and export oracles, since all their
exceptions are caught per item.  The stage oracles in `env` are universally
quantified. -/
theorem C1_run_reaches_notified (env : Env) (fs fs1 : FS)
    (hc : confirm_execution env.confirmInput = true)
    (hs : setup_directories env fs = .ok fs1)
    (hne : scan_input_files fs1 ≠ []) :
    (run env fs).1 = RunResult.notified
    ∧ ∃ pre, (run env fs).2.2 = pre ++ [Event.notify] := by
  rw [run_ok_eq hc hs hne]
  refine ⟨rfl, ⟨(hazeResult env fs1).2 ++ ((atcorResult env fs1).2 ++
    ((mosaicResult env fs1).2 ++ (exportResult env fs1).2)), ?_⟩⟩
  show pipelineTrace env fs1 = _
  unfold pipelineTrace
  simp [List.append_assoc]

theorem C1_witness :
    (run envAllFail fsW).1 = RunResult.notified
    ∧ ∃ pre, (run envAllFail fsW).2.2 = pre ++ [Event.notify] :=
  C1_run_reaches_notified envAllFail fsW fsW1 (by decide) rfl (by decide)

/-- C2 as stated is false: after a successful `setup_directories` pass the
mosaic output directory is NOT empty — it contains the freshly created
cutline-shapefile subdirectory, because `shp_out = mosaic_out / 'shp'` is
nested inside it and is created last.  Concretely, from a clean working
directory the setup pass succeeds and `mosaic_out` has an entry strictly
below it (namely `shp_out`). -/
theorem C2_counterexample :
    setup_directories envAllOk fsNoScenes = .ok fsAfterSetup
    ∧ dirNonemptyB fsAfterSetup mosaic_out = true
    ∧ shp_out ∈ fsAfterSetup.dirs ∧ strictUnderB mosaic_out shp_out = true :=
  ⟨rfl, by decide, by decide, by decide⟩

/-- C2 (amended): after `setup_directories` returns normally all four output
directories exist; the haze, atmospheric-correction and cutline-shapefile
directories are empty, and the mosaic directory contains nothing except the
freshly created cutline-shapefile subdirectory nested inside it.  When a
prior directory cannot be fully removed (e.g. read-only or locked files
survive the error-ignoring `rmtree`), the subsequent `mkdir` raises, so the
failure is reported rather than silently skipped; and a setup failure is
fatal: the exception propagates and aborts the run.  Hypotheses: the
removal oracle is physically closed (a directory is removable only when its
contents are) and the initial filesystem is well-formed. -/
theorem C2_setup_contract_amended (env : Env) (fs fs' : FS)
    (hrm : RmClosed env.rmOk) (hwf : fswfB fs = true)
    (hs : setup_directories env fs = .ok fs') :
    (haze_out ∈ fs'.dirs ∧ atcor_out ∈ fs'.dirs ∧ mosaic_out ∈ fs'.dirs ∧
      shp_out ∈ fs'.dirs)
    ∧ dirEmptyIn fs' haze_out
    ∧ dirEmptyIn fs' atcor_out
    ∧ dirEmptyIn fs' shp_out
    ∧ (∀ q, inFS fs' q → strictUnderB mosaic_out q = true → q = shp_out)
    ∧ (∀ (env2 : Env) (fs2 : FS) (d : FPath), existsIn fs2 d = true →
        existsIn (rmtree_ie env2.rmOk d fs2) d = true →
        ∃ e, setupStep env2 fs2 d = Except.error e)
    ∧ (∀ (env2 : Env) (fs2 : FS) (e : Err),
        confirm_execution env2.confirmInput = true →
        setup_directories env2 fs2 = .error e →
        (run env2 fs2).1 = RunResult.errored e) := by
  have hfacts := setup_ok_facts hrm (fswfB_fswf hwf) hs
  refine ⟨hfacts.1, hfacts.2.1, hfacts.2.2.1, hfacts.2.2.2.1, hfacts.2.2.2.2.1, ?_, ?_⟩
  · intro env2 fs2 d hex hex2
    refine ⟨Err.fileExists, ?_⟩
    unfold setupStep
    rw [if_pos hex]
    unfold mkdir_p
    rw [if_pos hex2]
  · intro env2 fs2 e hc2 hs2
    rw [run_error_prop hc2 hs2]

theorem C2_witness :
    (haze_out ∈ fsAfterSetup.dirs ∧ atcor_out ∈ fsAfterSetup.dirs ∧
      mosaic_out ∈ fsAfterSetup.dirs ∧ shp_out ∈ fsAfterSetup.dirs)
    ∧ dirEmptyIn fsAfterSetup haze_out
    ∧ dirEmptyIn fsAfterSetup atcor_out
    ∧ dirEmptyIn fsAfterSetup shp_out
    ∧ (∀ q, inFS fsAfterSetup q → strictUnderB mosaic_out q = true → q = shp_out)
    ∧ (∀ (env2 : Env) (fs2 : FS) (d : FPath), existsIn fs2 d = true →
        existsIn (rmtree_ie env2.rmOk d fs2) d = true →
        ∃ e, setupStep env2 fs2 d = Except.error e)
    ∧ (∀ (env2 : Env) (fs2 : FS) (e : Err),
        confirm_execution env2.confirmInput = true →
        setup_directories env2 fs2 = .error e →
        (run env2 fs2).1 = RunResult.errored e) :=
  C2_setup_contract_amended envAllOk fsNoScenes fsAfterSetup
    (fun _ _ _ _ => rfl) (by decide) rfl

/-- C3: for every batch of N discovered scenes the haze stage emits exactly
N `hazerem` invocations, one per scene in batch order, each with the fixed
haze-coverage coefficient 40 and the derived `"-MS"` input identifier — for
EVERY outcome of the per-call oracle, so a failure on scene k never
prevents the attempts on later scenes; every failed call is logged with the
scene identity; and the stage only appends output files (no rollback of
partial output). -/
theorem C3_haze_batch_isolation (env : Env) (input_files : List FPath) (fs : FS) :
    ((process_haze_removal env input_files fs).2.filter isHazeCallB =
      (enumIdx 1 input_files).map fun p =>
        Event.hazeCall p.1 (pstr p.2 ++ "-MS") 40 (haze_out ++ [hazeName p.1]))
    ∧ ((process_haze_removal env input_files fs).2.filter isHazeCallB).length
        = input_files.length
    ∧ (∀ p ∈ enumIdx 1 input_files, env.hazeOk p.1 = false →
        Event.hazeErr p.2 ∈ (process_haze_removal env input_files fs).2)
    ∧ (∃ t, (process_haze_removal env input_files fs).1.files = fs.files ++ t) := by
  refine ⟨hazeLoop_calls env input_files 1 fs, ?_, ?_, ?_⟩
  · rw [show (process_haze_removal env input_files fs).2 =
        (hazeLoop env 1 fs input_files).2 from rfl,
      hazeLoop_calls env input_files 1 fs, List.length_map, enumIdx_length]
  · exact fun p hp hf => hazeLoop_errs env input_files 1 fs p hp hf
  · refine ⟨hazeOuts env 1 input_files, ?_⟩
    rw [show (process_haze_removal env input_files fs).1 =
        (hazeLoop env 1 fs input_files).1 from rfl,
      hazeLoop_fst env input_files 1 fs]

/-- C4: atmospheric correction iterates over exactly the `.pix` files
present in the haze output directory at the time it runs (first conjunct,
for an arbitrary filesystem), with the same per-item failure isolation as
the haze stage (third conjunct); inside a full run this means the number of
`atcor` invocations equals the number of haze invocations that succeeded —
M = (successes among the N scenes), not N (second conjunct). -/
theorem C4_atcor_operates_on_haze_dir (env : Env) (fs fs1 : FS)
    (hrm : RmClosed env.rmOk) (hwf : fswfB fs = true)
    (hc : confirm_execution env.confirmInput = true)
    (hs : setup_directories env fs = .ok fs1)
    (hne : scan_input_files fs1 ≠ []) :
    (∀ fsx : FS, (process_atmospheric_correction env fsx).2.filter isAtcorCallB =
      (enumIdx 1 (globPix haze_out fsx)).map fun p =>
        Event.atcorCall p.1 p.2 (atcor_out ++ [atcorName p.1]))
    ∧ ((run env fs).2.2.filter isAtcorCallB).length =
        (enumIdx 1 (scan_input_files fs1)).countP (fun p => env.hazeOk p.1)
    ∧ (∀ p ∈ enumIdx 1 (globPix haze_out (hazeResult env fs1).1),
        env.atcorOk p.1 = false → Event.atcorErr p.2 ∈ (run env fs).2.2) := by
  refine ⟨fun fsx => atcorLoop_calls env (globPix haze_out fsx) 1 fsx, ?_, ?_⟩
  · rw [run_ok_eq hc hs hne]
    show ((pipelineTrace env fs1).filter isAtcorCallB).length = _
    rw [(pipelineTrace_filters env fs1).2.2, atcorResult_calls, List.length_map,
      enumIdx_length, run_glob_eq hrm (fswfB_fswf hwf) hs, hazeOuts_length]
  · intro p hp hf
    rw [run_ok_eq hc hs hne]
    show Event.atcorErr p.2 ∈ pipelineTrace env fs1
    unfold pipelineTrace
    have hmem : Event.atcorErr p.2 ∈ (atcorResult env fs1).2 :=
      atcorLoop_errs env (globPix haze_out (hazeResult env fs1).1) 1
        (hazeResult env fs1).1 p hp hf
    simp only [List.mem_append]
    exact Or.inl (Or.inl (Or.inl (Or.inr hmem)))

theorem C4_witness :
    ((run envHaze1Fails fsW).2.2.filter isAtcorCallB).length =
      (enumIdx 1 (scan_input_files fsW1)).countP (fun p => envHaze1Fails.hazeOk p.1) :=
  (C4_atcor_operates_on_haze_dir envHaze1Fails fsW fsW1
    (fun _ _ _ _ => rfl) (by decide) (by decide) rfl (by decide)).2.1

/-- C5: in every run that passes confirmation and discovery, the
mosaic-build operation and the export operation are each invoked exactly
once — the trace contains exactly one `automos` call (bands "4,3,2",
full-extent mosaic, adaptive balancing, minimum-difference cutline) and
exactly one `fexport` call (bands 1,2,3, format TIF) — regardless of the
outcomes of every per-scene and per-stage oracle, including the case where
all of them fail. -/
theorem C5_mosaic_export_called_once (env : Env) (fs fs1 : FS)
    (hc : confirm_execution env.confirmInput = true)
    (hs : setup_directories env fs = .ok fs1)
    (hne : scan_input_files fs1 ≠ []) :
    (run env fs).2.2.filter isAutomosCallB =
      [Event.automosCall atcor_out "4,3,2" "full" (mosaic_out ++ ["mosaic.pix"])
        "adaptive" "overlay" "mindiff" (shp_out ++ ["cutlines.shp"])]
    ∧ (run env fs).2.2.filter isFexportCallB =
      [Event.fexportCall (mosaic_out ++ ["mosaic.pix"]) (mosaic_out ++ ["mosaic.tif"])
        [1, 2, 3] "TIF"] := by
  rw [run_ok_eq hc hs hne]
  exact ⟨(pipelineTrace_filters env fs1).1, (pipelineTrace_filters env fs1).2.1⟩

theorem C5_witness :
    (run envAllFail fsW).2.2.filter isAutomosCallB =
      [Event.automosCall atcor_out "4,3,2" "full" (mosaic_out ++ ["mosaic.pix"])
        "adaptive" "overlay" "mindiff" (shp_out ++ ["cutlines.shp"])]
    ∧ (run envAllFail fsW).2.2.filter isFexportCallB =
      [Event.fexportCall (mosaic_out ++ ["mosaic.pix"]) (mosaic_out ++ ["mosaic.tif"])
        [1, 2, 3] "TIF"] :=
  C5_mosaic_export_called_once envAllFail fsW fsW1 (by decide) rfl (by decide)

/-- C6: if the user declines the confirmation prompt, the run terminates
immediately with exit code 1, the filesystem is returned untouched, and the
event trace is empty — no directory is created or removed, no discovery
and no external call happens. -/
theorem C6_decline_leaves_untouched (env : Env) (fs : FS)
    (h : confirm_execution env.confirmInput = false) :
    run env fs = (RunResult.exited 1, fs, []) :=
  run_declined fs h

theorem C6_witness : run envDecline fsW = (RunResult.exited 1, fsW, []) :=
  C6_decline_leaves_untouched envDecline fsW (by decide)

/-- C7: if scene discovery returns an empty batch, the run terminates with
exit code 1 and the user-visible "no MTL files found" error, and the trace
contains no haze, atcor, mosaic or export invocation — the whole trace is
the single error-log event. -/
theorem C7_zero_scenes_abort (env : Env) (fs fs1 : FS)
    (hc : confirm_execution env.confirmInput = true)
    (hs : setup_directories env fs = .ok fs1)
    (hsc : scan_input_files fs1 = []) :
    run env fs = (RunResult.exited 1, fs1, [Event.logNoScenes]) :=
  run_noscenes hc hs hsc

theorem C7_witness :
    run envAllOk fsNoScenes = (RunResult.exited 1, fsAfterSetup, [Event.logNoScenes]) :=
  C7_zero_scenes_abort envAllOk fsNoScenes fsAfterSetup (by decide) rfl (by decide)

/-- C9: output filenames are deterministic and collision-free within a run:
the haze stage names its i-th output `hazerem{i}.pix` by 1-based batch
position and those names never collide; the atcor stage names its i-th
output `atcor{i}.pix` by 1-based position in the haze-directory listing,
again collision-free.  Because the atcor numbering restarts at 1 over the
surviving haze outputs, an atcor index need not match the original scene
index once a haze call has failed: in the concrete run where haze fails on
scene 1 of 2, the only atcor call is number 1 but consumes `hazerem2.pix`,
scene 2's output. -/
theorem C9_filenames_deterministic :
    (∀ (env : Env) (l : List FPath) (fs : FS),
      ((process_haze_removal env l fs).2.filter isHazeCallB).map hazeFiloOf =
          (enumIdx 1 l).map (fun p => haze_out ++ [hazeName p.1])
        ∧ (((process_haze_removal env l fs).2.filter isHazeCallB).map hazeFiloOf).Nodup)
    ∧ (∀ (env : Env) (fs : FS),
      ((process_atmospheric_correction env fs).2.filter isAtcorCallB).map atcorFiloOf =
          (enumIdx 1 (globPix haze_out fs)).map (fun p => atcor_out ++ [atcorName p.1])
        ∧ (((process_atmospheric_correction env fs).2.filter isAtcorCallB).map
            atcorFiloOf).Nodup)
    ∧ (run envHaze1Fails fsW).2.2.filter isAtcorCallB =
        [Event.atcorCall 1 (haze_out ++ [hazeName 2]) (atcor_out ++ [atcorName 1])] := by
  refine ⟨?_, ?_, by decide⟩
  · intro env l fs
    have hshow : (process_haze_removal env l fs).2 = (hazeLoop env 1 fs l).2 := rfl
    constructor
    · rw [hshow, hazeLoop_calls env l 1 fs, List.map_map]
      exact List.map_congr_left fun p _ => rfl
    · rw [hshow, hazeLoop_calls env l 1 fs, List.map_map]
      exact names_nodup hazeName (fun a b h => hazeName_inj h) haze_out l 1
  · intro env fs
    have hshow : (process_atmospheric_correction env fs).2 =
        (atcorLoop env 1 fs (globPix haze_out fs)).2 := rfl
    constructor
    · rw [hshow, atcorLoop_calls env (globPix haze_out fs) 1 fs, List.map_map]
      exact List.map_congr_left fun p _ => rfl
    · rw [hshow, atcorLoop_calls env (globPix haze_out fs) 1 fs, List.map_map]
      exact names_nodup atcorName (fun a b h => atcorName_inj h) atcor_out
        (globPix haze_out fs) 1

/-- C10: scene discovery runs strictly after directory setup, so at scan
time the four output directories are freshly recreated; consequently no
path below any of the four output directories — in particular no output
file of a previous run — can appear in the discovered batch, even though
the recursive walk covers the whole working tree including those
directories. -/
theorem C10_stale_outputs_never_discovered (env : Env) (fs fs1 : FS)
    (hrm : RmClosed env.rmOk) (hwf : fswfB fs = true)
    (hs : setup_directories env fs = .ok fs1) :
    ∀ q ∈ scan_input_files fs1, ∀ d ∈ directories, strictUnderB d q = false := by
  intro q hq d hd
  have hqf : q ∈ fs1.files := (List.mem_filter.mp hq).1
  have hfacts := setup_ok_facts hrm (fswfB_fswf hwf) hs
  simp only [directories, List.mem_cons, List.not_mem_nil, or_false] at hd
  rcases hd with rfl | rfl | rfl | rfl
  · exact hfacts.2.1 q (Or.inr hqf)
  · exact hfacts.2.2.1 q (Or.inr hqf)
  · cases hb : strictUnderB mosaic_out q
    · rfl
    · exfalso
      have hq_eq := hfacts.2.2.2.2.1 q (Or.inr hqf) hb
      rw [hq_eq] at hqf
      exact setup_shp_not_file hs hqf
  · exact hfacts.2.2.2.1 q (Or.inr hqf)

theorem C10_witness :
    strictUnderB mosaic_out (working_dir ++ ["scene1", "LC08_A_MTL.txt"]) = false :=
  C10_stale_outputs_never_discovered envAllOk fsW fsW1
    (fun _ _ _ _ => rfl) (by decide) rfl
    (working_dir ++ ["scene1", "LC08_A_MTL.txt"]) (by decide) mosaic_out (by decide)

end Landsat8ProcessMosaic
